import Mathlib

/-!
# Verification of the EEG ITPC pipeline (`ITPC_Data_Final_25.py`)

Shallow embedding of the core of `EEGPhaseAnalysis`:
`parse_complex_value`, `preprocess_data`, `compute_itpc` and the per-bucket
assembly done by `analyze_itpc`.  Python floats are modelled exactly: a
string parses to a decimal `(m, e)` with value `m · 10^e : ℚ`, cast to `ℝ`
where the code computes; `cmath.phase` and `math.atan2` are modelled by
`Complex.arg`; an operation that can raise an exception is modelled as
`Option`-valued, with the `try/except` fallback of the source applied on
top.
-/

namespace ITPC

/-- A Python value as it can sit in a DataFrame cell handed to
`parse_complex_value`: a native complex number, a list of values, a string,
a plain numeric value (int or float, modelled exactly as a rational), or any
other object (`pyother`), for which every numeric coercion raises. -/
inductive PyVal where
  | pycomplex (re im : ℝ)
  | pylist (l : List PyVal)
  | pystr (s : String)
  | pynum (q : ℚ)
  | pyother
deriving Inhabited

/-- An exactly represented decimal number: `(m, e)` denotes `m · 10^e`. -/
abbrev Dec := ℤ × ℤ

/-- The rational value of a parsed decimal literal. -/
def decVal (p : Dec) : ℚ :=
  (p.1 : ℚ) * (10 : ℚ) ^ p.2

/-! ## Python `float(...)` on strings

Model of the core grammar the CPython float parser accepts on strings:
`[+|-] (digits [. digits] | digits . | . digits) [(e|E) [+|-] digits]`.
(Surrounding whitespace, `_` digit separators and `inf`/`nan` are not
modelled; none of the cells of this data set use them.)  The value is
exact, not rounded to a binary double. -/

def natOfDigits (l : List Char) : ℕ :=
  l.foldl (fun a c => 10 * a + (c.toNat - 48)) 0

def allDigits (l : List Char) : Bool :=
  l.all Char.isDigit

/-- The mantissa part: `digits`, `digits.digits`, `digits.` or `.digits`. -/
def parseMantissa (l : List Char) : Option Dec :=
  match l.splitOn '.' with
  | [a] => if a ≠ [] && allDigits a then some ((natOfDigits a : ℤ), 0) else none
  | [a, b] =>
      if (a ≠ [] || b ≠ []) && allDigits a && allDigits b then
        some ((natOfDigits (a ++ b) : ℤ), -(b.length : ℤ))
      else none
  | _ => none

/-- The exponent part after `e`/`E`: an optionally signed digit string. -/
def parseExpPart (l : List Char) : Option ℤ :=
  match l with
  | '+' :: rest => if rest ≠ [] && allDigits rest then some (natOfDigits rest : ℤ) else none
  | '-' :: rest => if rest ≠ [] && allDigits rest then some (-(natOfDigits rest : ℤ)) else none
  | _ => if l ≠ [] && allDigits l then some (natOfDigits l : ℤ) else none

/-- An unsigned float literal (mantissa with optional exponent). -/
def pyFloatCore (l : List Char) : Option Dec :=
  match (l.map (fun c => if c = 'E' then 'e' else c)).splitOn 'e' with
  | [m] => parseMantissa m
  | [m, e] => do
      let mv ← parseMantissa m
      let ev ← parseExpPart e
      pure (mv.1, mv.2 + ev)
  | _ => none

/-- A float literal with an optional leading sign. -/
def pySignedFloat (l : List Char) : Option Dec :=
  match l with
  | '+' :: rest => pyFloatCore rest
  | '-' :: rest => (pyFloatCore rest).map (fun p => (-p.1, p.2))
  | _ => pyFloatCore l

/-- `float(s)` for a string `s`: `some` decimal, or `none` when CPython
would raise `ValueError`. -/
def pyFloatParse (s : String) : Option Dec :=
  pySignedFloat s.data

/-! ## Python `complex(...)` on strings

Core grammar of the CPython complex-literal reader, used by the source only
on strings whose `i` letters were already replaced by `j`:
`±a±bj`, `±bj`, `±a`, with an empty imaginary coefficient meaning `1`.
(Surrounding parentheses and whitespace are not modelled.) -/

def isSignCh (c : Char) : Bool :=
  c = '+' || c = '-'

/-- Index of the last `+`/`-` that separates the real from the imaginary
part: it must not be the leading sign and must not follow an `e`/`E`. -/
def splitIdx (l : List Char) : Option ℕ :=
  ((List.range l.length).filter (fun k =>
    decide (0 < k) && isSignCh (l.getD k ' ') &&
      !(l.getD (k - 1) ' ' = 'e' || l.getD (k - 1) ' ' = 'E'))).getLast?

/-- The imaginary coefficient in front of `j`: an empty string or a bare
sign means `±1`, otherwise a signed float literal. -/
def parseImagCoeff (l : List Char) : Option Dec :=
  match l with
  | [] => some (1, 0)
  | ['+'] => some (1, 0)
  | ['-'] => some (-1, 0)
  | _ => pySignedFloat l

def pyComplexCore (l : List Char) : Option (Dec × Dec) :=
  if l.getLast? = some 'j' then
    let body := l.dropLast
    match splitIdx body with
    | some k => do
        let re ← pySignedFloat (body.take k)
        let sign := body.getD k '+'
        let im ← (if body.drop (k + 1) = [] then some ((1 : ℤ), (0 : ℤ))
                  else pyFloatCore (body.drop (k + 1)))
        pure (re, if sign = '-' then (-im.1, im.2) else im)
    | none => do
        let im ← parseImagCoeff body
        pure (((0 : ℤ), (0 : ℤ)), im)
  else do
    let re ← pySignedFloat l
    pure (re, ((0 : ℤ), (0 : ℤ)))

/-- `complex(s)` for a string `s`: `some (re, im)` as decimals, or `none`
when CPython would raise `ValueError`. -/
def pyComplexParse (s : String) : Option (Dec × Dec) :=
  pyComplexCore s.data

/-! ## The string helpers the parser uses -/

/-- `val.strip("'\"[]")`: drop any run of quote/bracket characters from both
ends of the string. -/
def stripQB (s : String) : String :=
  let inSet : Char → Bool := fun c => c = '\'' || c = '"' || c = '[' || c = ']'
  ⟨((s.data.dropWhile inSet).reverse.dropWhile inSet).reverse⟩

/-- `'i' in val or 'j' in val`. -/
def hasIJ (s : String) : Bool :=
  s.data.any (fun c => c = 'i' || c = 'j')

/-- `val.replace('i', 'j')`. -/
def replaceIJ (s : String) : String :=
  ⟨s.data.map (fun c => if c = 'i' then 'j' else c)⟩

/-- `val.rstrip('i')`: drop every trailing `'i'`. -/
def rstripI (s : String) : String :=
  ⟨(s.data.reverse.dropWhile (fun c => c = 'i')).reverse⟩

/-- `float(val)` on an arbitrary value, as a rational: succeeds on numbers
and on parseable strings, raises (`none`) on complex numbers, lists and
other objects. -/
def pyFloatQ : PyVal → Option ℚ
  | .pynum q => some q
  | .pystr s => (pyFloatParse s).map decVal
  | _ => none

/-- `val.rstrip('i')` on an arbitrary value: only strings have `rstrip`;
anything else raises `AttributeError` (`none`). -/
def pyRstripI : PyVal → Option String
  | .pystr s => some (rstripI s)
  | _ => none

/-! ## `parse_complex_value` -/

/-- `math.atan2(y, x)`: the four-quadrant arctangent, which for exact reals
is the argument of the complex number `x + y·i`. -/
noncomputable def atan2 (y x : ℝ) : ℝ :=
  Complex.arg ⟨x, y⟩

/-- `complex(val)` on a non-string value (the direct-conversion branch at
the end of `parse_complex_value`, which a string can never reach): succeeds
on complex numbers and plain numbers, raises (`none`) on lists and other
objects. -/
noncomputable def pyComplexOf : PyVal → Option ℂ
  | .pycomplex re im => some ⟨re, im⟩
  | .pynum q => some ⟨(q : ℝ), 0⟩
  | _ => none

/-- The part of `parse_complex_value`'s `try` body after the
list-handling block (reached directly, or with the unwrapped element of a
one-element list): the string branch, then direct `complex(val)`
conversion.  `none` models an exception escaping to the `except` handler. -/
noncomputable def parseTail (val : PyVal) : Option (ℂ × ℝ) :=
  match val with
  | .pystr s =>
      -- val = val.strip("'\"[]")
      let s := stripQB s
      if hasIJ s then
        -- val = val.replace('i', 'j'); complex_num = complex(val)
        match pyComplexParse (replaceIJ s) with
        | some (re, im) =>
            some (⟨(decVal re : ℝ), (decVal im : ℝ)⟩,
              Complex.arg ⟨(decVal re : ℝ), (decVal im : ℝ)⟩)
        | none => none
      else
        -- real = float(val); return complex(real, 0), 0
        match pyFloatParse s with
        | some r => some (⟨(decVal r : ℝ), 0⟩, 0)
        | none => none
  | v =>
      match pyComplexOf v with
      | some z => some (z, Complex.arg z)
      | none => none

/-- The `try` body of `parse_complex_value`: `some (complex, phase)` on the
normal paths, `none` when any branch raises. -/
noncomputable def parse_complex_value_try (val : PyVal) : Option (ℂ × ℝ) :=
  match val with
  | .pycomplex re im =>
      -- already a complex number: return it with cmath.phase(val)
      some (⟨re, im⟩, Complex.arg ⟨re, im⟩)
  | .pylist [a, b] =>
      -- real = float(val[0]); imag = float(val[1].rstrip('i'))
      match pyFloatQ a, pyRstripI b with
      | some re, some bs =>
          match pyFloatParse bs with
          | some im =>
              some (⟨(re : ℝ), (decVal im : ℝ)⟩, atan2 (decVal im : ℝ) (re : ℝ))
          | none => none
      | _, _ => none
  | .pylist [a] =>
      -- val = val[0], then fall through to the string / direct branches
      parseTail a
  | .pylist _ =>
      -- a list of any other length reaches complex(val), which raises
      none
  | v => parseTail v

/-- `parse_complex_value`: the `try` body with the `except` fallback
`(0+0j, 0)`.  Total — no exception propagates to the caller. -/
noncomputable def parse_complex_value (val : PyVal) : ℂ × ℝ :=
  (parse_complex_value_try val).getD (0, 0)

/-! ## Grouping (`preprocess_data`) -/

/-- One row of the loaded DataFrame: the `stimuli` and `electrode_number`
columns and the cell contents, `cells i` being column `complex_val_i`. -/
structure Row where
  stimuli : ℤ
  electrode_number : ℤ
  cells : ℕ → PyVal

/-- `self.trial_conditions`: condition code with its inclusive stimulus
range, in dict insertion order. -/
def trial_conditions : List (String × ℤ × ℤ) :=
  [("GN", 1, 30), ("GS", 31, 60), ("UN", 61, 90), ("US", 91, 120)]

/-- `self.frequencies`: the 58 predefined frequencies, as exact decimals. -/
def frequencies : List ℚ :=
  [260416666666667/1000000000000000, 325520833333333/1000000000000000,
   390625/1000000, 455729166666667/1000000000000000,
   520833333333333/1000000000000000, 5859375/10000000,
   651041666666667/1000000000000000, 716145833333333/1000000000000000,
   78125/100000, 846354166666667/1000000000000000,
   911458333333333/1000000000000000, 9765625/10000000,
   104166666666667/100000000000000, 110677083333333/100000000000000,
   1171875/1000000, 123697916666667/100000000000000,
   130208333333333/100000000000000, 13671875/10000000,
   143229166666667/100000000000000, 149739583333333/100000000000000,
   15625/10000, 162760416666667/100000000000000,
   169270833333333/100000000000000, 17578125/10000000,
   182291666666667/100000000000000, 188802083333333/100000000000000,
   1953125/1000000, 201822916666667/100000000000000,
   208333333333333/100000000000000, 21484375/10000000,
   221354166666667/100000000000000, 227864583333333/100000000000000,
   234375/100000, 240885416666667/100000000000000,
   247395833333333/100000000000000, 25390625/10000000,
   260416666666667/100000000000000, 266927083333333/100000000000000,
   2734375/1000000, 279947916666667/100000000000000,
   286458333333333/100000000000000, 29296875/10000000,
   299479166666667/100000000000000, 305989583333333/100000000000000,
   3125/1000, 319010416666667/100000000000000,
   325520833333333/100000000000000, 33203125/10000000,
   338541666666667/100000000000000, 345052083333333/100000000000000,
   3515625/1000000, 358072916666667/100000000000000,
   364583333333333/100000000000000, 37109375/10000000,
   377604166666667/100000000000000, 384114583333333/100000000000000,
   390625/100000, 397135416666667/100000000000000]

/-- The default of the constructor parameter `num_frequencies`. -/
def num_frequencies_default : ℕ := 58

/-- `data[(data['stimuli'] >= start) & (data['stimuli'] <= end)]`. -/
def conditionSubset (data : List Row) (start «end» : ℤ) : List Row :=
  data.filter (fun r => decide (start ≤ r.stimuli ∧ r.stimuli ≤ «end»))

/-- `condition_subset[condition_subset['electrode_number'] == electrode]`. -/
def electrodeData (condition_subset : List Row) (electrode : ℤ) : List Row :=
  condition_subset.filter (fun r => decide (r.electrode_number = electrode))

/-- `[f'complex_val_{i}' for i in range(1, 58)]`: the hard-coded column
indices 1..57, independent of `num_frequencies`. -/
def complex_columns : List ℕ :=
  List.range' 1 57

/-- One bucket's parsed data: the `'complex'` matrix and the `'phases'`
matrix, one row per trial in original order. -/
noncomputable def bucketData (bucket : List Row) : List (List ℂ) × List (List ℝ) :=
  (bucket.map (fun r => complex_columns.map (fun i => (parse_complex_value (r.cells i)).1)),
   bucket.map (fun r => complex_columns.map (fun i => (parse_complex_value (r.cells i)).2)))

/-- `preprocess_data`: for each condition (in `trial_conditions` order) and
each electrode `1..num_electrodes`, the bucket's parsed complex and phase
matrices.  The stored `num_frequencies` is never read by this method; it is
kept as an argument to state that fact. -/
noncomputable def preprocess_data (num_frequencies num_electrodes : ℕ) (data : List Row) :
    List (String × List (ℤ × (List (List ℂ) × List (List ℝ)))) :=
  let _ := num_frequencies
  trial_conditions.map (fun c =>
    (c.1, (List.range' 1 num_electrodes).map (fun (e : ℕ) =>
      ((e : ℤ), bucketData (electrodeData (conditionSubset data c.2.1 c.2.2) (e : ℤ))))))

/-! ## `compute_itpc` -/

/-- What `np.abs(np.mean(np.exp(1j*phases), axis=0))` can be here: a 0-d
NaN scalar, or a 1-d vector of reals.  `np.array` of an empty list of rows
is the 1-d empty float array, and `np.mean(..., axis=0)` of that empty
array is the scalar `nan` (with a `Mean of empty slice` RuntimeWarning, not
an exception); on a non-empty `(n, F)` array it is the length-`F` vector of
column means. -/
inductive NpVal where
  | nan
  | vec (v : List ℝ)

/-- `compute_itpc(phases)`: per frequency column, the magnitude of the mean
of the unit vectors `e^{iθ}` across trials; the scalar NaN when the matrix
has no rows. -/
noncomputable def compute_itpc (phases : List (List ℝ)) : NpVal :=
  match phases with
  | [] => .nan
  | r :: rs =>
      .vec ((List.range r.length).map (fun j =>
        Complex.abs
          ((((r :: rs).map (fun row => Complex.exp (Complex.I * ((row.getD j 0 : ℝ) : ℂ)))).sum) /
            (((r :: rs).length : ℕ) : ℂ))))

/-- The per-bucket ITPC assembly of `analyze_itpc` (the `complex_data`
echoed alongside is dropped here): `compute_itpc` applied to every bucket's
phase matrix of `preprocess_data`. -/
noncomputable def analyze_itpc (num_frequencies num_electrodes : ℕ) (data : List Row) :
    List (String × List (ℤ × NpVal)) :=
  (preprocess_data num_frequencies num_electrodes data).map (fun cb =>
    (cb.1, cb.2.map (fun em => (em.1, compute_itpc em.2.2))))

/-! ## Helper lemmas -/

/-- The string branch with no imaginary-unit letter and an unparseable
remainder raises `ValueError` in `float(...)`, so the `try` body yields
`none`. -/
theorem parseTail_str_none (s : String) (h1 : hasIJ (stripQB s) = false)
    (h2 : pyFloatParse (stripQB s) = none) :
    parseTail (.pystr s) = none := by
  simp only [parseTail, h1, h2]
  simp

/-- A string input goes straight to the string/direct tail of the parser. -/
theorem parse_try_str (s : String) :
    parse_complex_value_try (.pystr s) = parseTail (.pystr s) := rfl

/-- Any phase produced by the tail of the parser is `0` or an argument of
some complex number. -/
theorem parseTail_phase (v : PyVal) (p : ℂ × ℝ) (h : parseTail v = some p) :
    p.2 = 0 ∨ ∃ w : ℂ, p.2 = Complex.arg w := by
  cases v with
  | pystr s =>
      simp only [parseTail] at h
      by_cases hij : hasIJ (stripQB s)
      · rw [if_pos hij] at h
        rcases hc : pyComplexParse (replaceIJ (stripQB s)) with _ | ⟨re, im⟩ <;> rw [hc] at h
        · simp at h
        · simp only [Option.some.injEq] at h
          right
          exact ⟨_, (congrArg Prod.snd h).symm⟩
      · rw [if_neg hij] at h
        rcases hf : pyFloatParse (stripQB s) with _ | r <;> rw [hf] at h
        · simp at h
        · simp only [Option.some.injEq] at h
          left
          exact (congrArg Prod.snd h).symm
  | pycomplex re im =>
      simp only [parseTail, pyComplexOf, Option.some.injEq] at h
      right
      exact ⟨_, (congrArg Prod.snd h).symm⟩
  | pynum q =>
      simp only [parseTail, pyComplexOf, Option.some.injEq] at h
      right
      exact ⟨_, (congrArg Prod.snd h).symm⟩
  | pylist l => simp [parseTail, pyComplexOf] at h
  | pyother => simp [parseTail, pyComplexOf] at h

/-- Any phase the `try` body of `parse_complex_value` produces is `0` or an
argument of some complex number. -/
theorem parse_try_phase (v : PyVal) (p : ℂ × ℝ)
    (h : parse_complex_value_try v = some p) :
    p.2 = 0 ∨ ∃ w : ℂ, p.2 = Complex.arg w := by
  cases v with
  | pycomplex re im =>
      simp only [parse_complex_value_try, Option.some.injEq] at h
      right
      exact ⟨_, (congrArg Prod.snd h).symm⟩
  | pylist l =>
      rcases l with _ | ⟨a, _ | ⟨b, _ | ⟨c, t⟩⟩⟩
      · simp [parse_complex_value_try] at h
      · exact parseTail_phase a p (show parseTail a = some p from h)
      · simp only [parse_complex_value_try] at h
        rcases hfa : pyFloatQ a with _ | re <;> rw [hfa] at h <;> (try dsimp only at h)
        · simp at h
        · rcases hrb : pyRstripI b with _ | bs <;> rw [hrb] at h <;> (try dsimp only at h)
          · simp at h
          · rcases hfi : pyFloatParse bs with _ | im <;> rw [hfi] at h <;> (try dsimp only at h)
            · simp at h
            · simp only [Option.some.injEq] at h
              right
              exact ⟨⟨((re : ℝ)), ((decVal im : ℚ) : ℝ)⟩, (congrArg Prod.snd h).symm⟩
      · simp [parse_complex_value_try] at h
  | pystr s =>
      exact parseTail_phase (PyVal.pystr s) p (show parseTail (PyVal.pystr s) = some p from h)
  | pynum q =>
      exact parseTail_phase (PyVal.pynum q) p (show parseTail (PyVal.pynum q) = some p from h)
  | pyother =>
      exact parseTail_phase PyVal.pyother p (show parseTail PyVal.pyother = some p from h)

/-- A phase unit vector has magnitude `1`. -/
theorem abs_exp_I_mul (x : ℝ) : Complex.abs (Complex.exp (Complex.I * (x : ℂ))) = 1 := by
  rw [Complex.abs_exp]
  simp

/-- `compute_itpc` on a non-empty matrix, written out. -/
theorem compute_itpc_cons (r : List ℝ) (rs : List (List ℝ)) :
    compute_itpc (r :: rs) = NpVal.vec ((List.range r.length).map (fun j =>
      Complex.abs
        ((((r :: rs).map (fun row => Complex.exp (Complex.I * ((row.getD j 0 : ℝ) : ℂ)))).sum) /
          (((r :: rs).length : ℕ) : ℂ)))) := rfl

/-- Shifting every entry of a row shifts the entry read at any in-range
column. -/
theorem getD_map_add (row : List ℝ) (c : ℝ) (j : ℕ) (hlen : j < row.length) :
    (row.map (fun θ => θ + c)).getD j 0 = row.getD j 0 + c := by
  rw [List.getD_eq_getElem?_getD, List.getElem?_map, List.getElem?_eq_getElem hlen,
    List.getD_eq_getElem?_getD, List.getElem?_eq_getElem hlen]
  rfl

/-- A constant phase shift factors out of the column sum of unit vectors. -/
theorem sum_exp_shift (l : List (List ℝ)) (j : ℕ) (c : ℝ)
    (hl : ∀ row ∈ l, j < row.length) :
    ((l.map (List.map (fun θ => θ + c))).map
        (fun row => Complex.exp (Complex.I * ((row.getD j 0 : ℝ) : ℂ)))).sum =
      ((l.map (fun row => Complex.exp (Complex.I * ((row.getD j 0 : ℝ) : ℂ)))).sum) *
        Complex.exp (Complex.I * (c : ℂ)) := by
  induction l with
  | nil => simp
  | cons a t ih =>
      simp only [List.map_cons, List.sum_cons]
      rw [ih (fun row hrow => hl row (List.mem_cons_of_mem a hrow))]
      rw [getD_map_add a c j (hl a (List.mem_cons_self a t))]
      have hcast : ((((a.getD j 0 + c) : ℝ) : ℂ)) = ((a.getD j 0 : ℝ) : ℂ) + (c : ℂ) := by
        push_cast
        ring
      rw [hcast, mul_add, Complex.exp_add]
      ring

/-- Triangle inequality for a list sum of complex numbers. -/
theorem list_norm_sum_le (l : List ℂ) : ‖l.sum‖ ≤ (l.map (fun z => ‖z‖)).sum := by
  induction l with
  | nil => simp
  | cons a t ih =>
      simp only [List.sum_cons, List.map_cons]
      exact (norm_add_le _ _).trans (by linarith)

/-- The norms of a column of phase unit vectors sum to the trial count. -/
theorem sum_norm_exp (l : List (List ℝ)) (j : ℕ) :
    ((l.map (fun row => Complex.exp (Complex.I * ((row.getD j 0 : ℝ) : ℂ)))).map
      (fun z => ‖z‖)).sum = (l.length : ℝ) := by
  induction l with
  | nil => simp
  | cons a t ih =>
      simp only [List.map_cons, List.sum_cons, List.length_cons, ih]
      rw [Complex.norm_eq_abs, abs_exp_I_mul]
      push_cast
      ring

/-! ## The claims -/

/-- C1: `parse_complex_value` is total — whenever any branch of the `try`
body raises (modelled as `parse_complex_value_try` returning `none`), the
result is exactly `(0+0j, 0)`; in particular the unparseable string
`"abc"` raises and yields `(0+0j, 0)`. -/
theorem parse_error_fallback :
    (∀ v : PyVal, parse_complex_value_try v = none → parse_complex_value v = (0, 0)) ∧
    parse_complex_value_try (PyVal.pystr "abc") = none ∧
    parse_complex_value (PyVal.pystr "abc") = (0, 0) := by
  have habc : parse_complex_value_try (PyVal.pystr "abc") = none := by
    rw [parse_try_str]
    exact parseTail_str_none _ (by decide) (by decide)
  refine ⟨fun v h => ?_, habc, ?_⟩
  · simp [parse_complex_value, h]
  · simp [parse_complex_value, habc]

/-- C2 counterexample: a row whose `stimuli` value 1 lies inside the GN
range `[1, 30]` but whose `electrode_number` 33 is outside `1..32` is
placed in no condition's bucket at all — not in exactly one. -/
def row_e33 : Row := ⟨1, 33, fun _ => PyVal.pyother⟩

/-- C2 (as stated) is false: `row_e33` has its stimulus inside a defined
range yet appears in no (condition, electrode) bucket. -/
theorem grouping_missing_electrode_cex :
    (("GN", (1 : ℤ), (30 : ℤ)) ∈ trial_conditions ∧
      (1 : ℤ) ≤ row_e33.stimuli ∧ row_e33.stimuli ≤ 30) ∧
    ∀ c ∈ trial_conditions, ∀ e : ℤ, 1 ≤ e → e ≤ 32 →
      row_e33 ∉ electrodeData (conditionSubset [row_e33] c.2.1 c.2.2) e := by
  refine ⟨⟨by simp [trial_conditions], by simp [row_e33], by simp [row_e33]⟩, ?_⟩
  intro c hc e h1 h2 hmem
  simp only [electrodeData, List.mem_filter, decide_eq_true_eq] at hmem
  have heq : row_e33.electrode_number = e := hmem.2
  simp [row_e33] at heq
  omega

/-- C2 (amended): a row of the table whose `stimuli` lies in some
condition's inclusive range **and whose electrode number is one of the
bucket keys `1..num_electrodes`** is in exactly one condition's bucket; a
row outside all ranges is in no bucket; and every (condition, electrode)
key is present in the result even when its bucket is empty. -/
theorem grouping_partition_and_keys (num_frequencies num_electrodes : ℕ)
    (data : List Row) (r : Row) (hr : r ∈ data) :
    (∀ e : ℤ, 1 ≤ e → e ≤ num_electrodes → r.electrode_number = e →
      (∃ c ∈ trial_conditions, c.2.1 ≤ r.stimuli ∧ r.stimuli ≤ c.2.2) →
      ∃! c, c ∈ trial_conditions ∧
        r ∈ electrodeData (conditionSubset data c.2.1 c.2.2) e) ∧
    ((∀ c ∈ trial_conditions, ¬(c.2.1 ≤ r.stimuli ∧ r.stimuli ≤ c.2.2)) →
      ∀ c ∈ trial_conditions, ∀ e : ℤ,
        r ∉ electrodeData (conditionSubset data c.2.1 c.2.2) e) ∧
    (∀ c ∈ trial_conditions, ∃ bs,
      (c.1, bs) ∈ preprocess_data num_frequencies num_electrodes data ∧
      ∀ e : ℕ, 1 ≤ e → e ≤ num_electrodes → ∃ m, ((e : ℤ), m) ∈ bs) := by
  refine ⟨?_, ?_, ?_⟩
  · intro e h1 h2 he hex
    obtain ⟨c₀, hc₀, hlo, hhi⟩ := hex
    refine ⟨c₀, ⟨hc₀, ?_⟩, ?_⟩
    · simp only [electrodeData, conditionSubset, List.mem_filter, decide_eq_true_eq]
      exact ⟨⟨hr, hlo, hhi⟩, he⟩
    · rintro c' ⟨hc', hmem⟩
      simp only [electrodeData, conditionSubset, List.mem_filter, decide_eq_true_eq] at hmem
      obtain ⟨⟨-, hlo', hhi'⟩, -⟩ := hmem
      simp only [trial_conditions, List.mem_cons, List.not_mem_nil, or_false] at hc₀ hc'
      rcases hc₀ with h | h | h | h <;> rcases hc' with h' | h' | h' | h' <;>
        subst h <;> subst h' <;> simp_all <;> omega
  · intro hout c hc e hmem
    simp only [electrodeData, conditionSubset, List.mem_filter, decide_eq_true_eq] at hmem
    exact hout c hc ⟨hmem.1.2.1, hmem.1.2.2⟩
  · intro c hc
    refine ⟨(List.range' 1 num_electrodes).map (fun (e : ℕ) =>
      ((e : ℤ), bucketData (electrodeData (conditionSubset data c.2.1 c.2.2) (e : ℤ)))), ?_, ?_⟩
    · simp only [preprocess_data, List.mem_map]
      exact ⟨c, hc, rfl⟩
    · intro e h1 h2
      have he : e ∈ List.range' 1 num_electrodes := List.mem_range'_1.2 ⟨h1, by omega⟩
      exact ⟨_, List.mem_map_of_mem _ he⟩

/-- C2 witness: the amended partition statement at a one-row table whose
row (stimulus 5, electrode 1) is a GN trial. -/
theorem grouping_partition_and_keys_witness :
    (∀ e : ℤ, 1 ≤ e → e ≤ 32 →
      (⟨5, 1, fun _ => PyVal.pyother⟩ : Row).electrode_number = e →
      (∃ c ∈ trial_conditions,
        c.2.1 ≤ (⟨5, 1, fun _ => PyVal.pyother⟩ : Row).stimuli ∧
        (⟨5, 1, fun _ => PyVal.pyother⟩ : Row).stimuli ≤ c.2.2) →
      ∃! c, c ∈ trial_conditions ∧
        (⟨5, 1, fun _ => PyVal.pyother⟩ : Row) ∈ electrodeData
          (conditionSubset [⟨5, 1, fun _ => PyVal.pyother⟩] c.2.1 c.2.2) e) ∧
    ((∀ c ∈ trial_conditions,
        ¬(c.2.1 ≤ (⟨5, 1, fun _ => PyVal.pyother⟩ : Row).stimuli ∧
          (⟨5, 1, fun _ => PyVal.pyother⟩ : Row).stimuli ≤ c.2.2)) →
      ∀ c ∈ trial_conditions, ∀ e : ℤ,
        (⟨5, 1, fun _ => PyVal.pyother⟩ : Row) ∉ electrodeData
          (conditionSubset [⟨5, 1, fun _ => PyVal.pyother⟩] c.2.1 c.2.2) e) ∧
    (∀ c ∈ trial_conditions, ∃ bs,
      (c.1, bs) ∈ preprocess_data 58 32 [⟨5, 1, fun _ => PyVal.pyother⟩] ∧
      ∀ e : ℕ, 1 ≤ e → e ≤ 32 → ∃ m, ((e : ℤ), m) ∈ bs) :=
  grouping_partition_and_keys 58 32 [⟨5, 1, fun _ => PyVal.pyother⟩]
    ⟨5, 1, fun _ => PyVal.pyother⟩ (by simp)

/-- C3: for a phase matrix with exactly one trial row, `compute_itpc`
returns the value 1 at every frequency column. -/
theorem itpc_single_trial_eq_one (row : List ℝ) :
    compute_itpc [row] = NpVal.vec (List.replicate row.length 1) := by
  simp only [compute_itpc]
  congr 1
  have h : ∀ j ∈ List.range row.length,
      Complex.abs ((([row].map
          (fun r => Complex.exp (Complex.I * ((r.getD j 0 : ℝ) : ℂ)))).sum) /
        ((([row] : List (List ℝ)).length : ℕ) : ℂ)) = 1 := by
    intro j _
    simp [abs_exp_I_mul]
  calc (List.range row.length).map _
      = (List.range row.length).map (fun _ => (1 : ℝ)) := List.map_congr_left h
    _ = List.replicate row.length 1 := by
        rw [List.map_const', List.length_range]

/-- C4: `compute_itpc` is invariant under adding a constant phase offset to
every entry of a (rectangular) phase matrix. -/
theorem itpc_const_phase_shift_invariant (phases : List (List ℝ)) (c : ℝ) (w : ℕ)
    (h : ∀ row ∈ phases, row.length = w) :
    compute_itpc (phases.map (fun row => row.map (fun θ => θ + c))) = compute_itpc phases := by
  cases phases with
  | nil => rfl
  | cons r rs =>
      have hr : r.length = w := h r (List.mem_cons_self r rs)
      rw [List.map_cons, compute_itpc_cons, compute_itpc_cons]
      rw [show (r.map (fun θ => θ + c) :: rs.map (List.map (fun θ => θ + c))) =
        (r :: rs).map (List.map (fun θ => θ + c)) from rfl]
      simp only [List.length_map]
      congr 1
      apply List.map_congr_left
      intro j hj
      rw [List.mem_range] at hj
      have hcols : ∀ row ∈ r :: rs, j < row.length := by
        intro row hrow
        rw [h row hrow, ← hr]
        exact hj
      rw [sum_exp_shift (r :: rs) j c hcols, map_div₀, map_div₀, map_mul]
      simp [abs_exp_I_mul, List.length_map]

/-- C4 witness: the invariance at the 2×2 matrix `[[0, 1], [2, 3]]` with
offset `5`. -/
theorem itpc_const_phase_shift_invariant_witness :
    compute_itpc ([[0, 1], [2, 3]].map (fun row => row.map (fun θ => θ + (5 : ℝ)))) =
      compute_itpc [[0, 1], [2, 3]] :=
  itpc_const_phase_shift_invariant [[0, 1], [2, 3]] 5 2 (by simp)

/-- C5 counterexample: on an empty bucket the code produces the 0-d scalar
NaN (`np.mean` of the empty 1-d array), which is not a vector of
frequencies at all — in particular not a vector with one NaN per
frequency bin. -/
theorem itpc_empty_bucket_scalar_cex :
    compute_itpc ([] : List (List ℝ)) = NpVal.nan ∧
    ∀ v : List ℝ, compute_itpc ([] : List (List ℝ)) ≠ NpVal.vec v :=
  ⟨rfl, fun _ h => NpVal.noConfusion h⟩

/-- C5 (amended): a (condition, electrode) bucket with zero trials does not
crash the ITPC computation and yields a single scalar NaN (not a length-F
vector), and that NaN is propagated into the per-bucket results under its
key rather than dropped. -/
theorem itpc_empty_bucket_nan_propagates (nf ne : ℕ) (data : List Row)
    (c : String × ℤ × ℤ) (hc : c ∈ trial_conditions) (e : ℕ)
    (h1 : 1 ≤ e) (h2 : e ≤ ne)
    (hempty : electrodeData (conditionSubset data c.2.1 c.2.2) (e : ℤ) = []) :
    ∃ bs, (c.1, bs) ∈ analyze_itpc nf ne data ∧ ((e : ℤ), NpVal.nan) ∈ bs := by
  refine ⟨((List.range' 1 ne).map (fun (a : ℕ) =>
      ((a : ℤ), bucketData (electrodeData (conditionSubset data c.2.1 c.2.2) (a : ℤ))))).map
      (fun em => (em.1, compute_itpc em.2.2)), ?_, ?_⟩
  · simp only [analyze_itpc, List.mem_map]
    refine ⟨(c.1, (List.range' 1 ne).map (fun (a : ℕ) =>
      ((a : ℤ), bucketData (electrodeData (conditionSubset data c.2.1 c.2.2) (a : ℤ))))), ?_, rfl⟩
    simp only [preprocess_data, List.mem_map]
    exact ⟨c, hc, rfl⟩
  · have he : e ∈ List.range' 1 ne := List.mem_range'_1.2 ⟨h1, by omega⟩
    have hmem := List.mem_map_of_mem (fun (a : ℕ) =>
      ((a : ℤ), bucketData (electrodeData (conditionSubset data c.2.1 c.2.2) (a : ℤ)))) he
    have hG := List.mem_map_of_mem (fun em : ℤ × (List (List ℂ) × List (List ℝ)) =>
      (em.1, compute_itpc em.2.2)) hmem
    simpa [hempty, bucketData, compute_itpc] using hG

/-- C5 witness: with an empty table, the GN/electrode-1 bucket is empty and
the results carry the scalar NaN for it. -/
theorem itpc_empty_bucket_nan_propagates_witness :
    ∃ bs, ((("GN", (1 : ℤ), (30 : ℤ)) : String × ℤ × ℤ).1, bs) ∈ analyze_itpc 58 32 [] ∧
      (((1 : ℕ) : ℤ), NpVal.nan) ∈ bs :=
  itpc_empty_bucket_nan_propagates 58 32 [] ("GN", 1, 30)
    (by simp [trial_conditions]) 1 (by norm_num) (by norm_num) rfl

/-- C6: on every input, the phase returned by `parse_complex_value` lies in
the half-open interval `(-π, π]`; in particular `-π` itself is never
returned on any branch. -/
theorem parse_phase_mem_Ioc (v : PyVal) :
    (parse_complex_value v).2 ∈ Set.Ioc (-Real.pi) Real.pi := by
  have hz : (0 : ℝ) ∈ Set.Ioc (-Real.pi) Real.pi :=
    ⟨by linarith [Real.pi_pos], le_of_lt Real.pi_pos⟩
  rcases htry : parse_complex_value_try v with _ | p
  · simpa [parse_complex_value, htry] using hz
  · rcases parse_try_phase v p htry with h0 | ⟨w, hw⟩
    · simpa [parse_complex_value, htry, h0] using hz
    · simp only [parse_complex_value, htry, Option.getD_some, hw]
      exact ⟨Complex.neg_pi_lt_arg w, Complex.arg_le_pi w⟩

/-- C7: a string cell that, after stripping surrounding quotes/brackets,
contains no `i`/`j` and parses as a real number yields that real with
imaginary part 0 and phase exactly 0 — the constant 0, whatever the sign
of the real value. -/
theorem parse_bare_real_phase_zero (s : String) (d : Dec)
    (hij : hasIJ (stripQB s) = false)
    (hr : pyFloatParse (stripQB s) = some d) :
    parse_complex_value (.pystr s) = (⟨(decVal d : ℝ), 0⟩, 0) := by
  have htry : parse_complex_value_try (.pystr s) = some (⟨(decVal d : ℝ), 0⟩, 0) := by
    rw [parse_try_str]
    simp only [parseTail, hij, hr]
    simp
  simp [parse_complex_value, htry]

/-- C7 witness: the negative bare real `"-2"` parses to `(-2+0j)` with
phase exactly 0 (not π). -/
theorem parse_bare_real_phase_zero_witness :
    pyFloatParse (stripQB "-2") = some (-2, 0) ∧ decVal (-2, 0) < 0 ∧
    parse_complex_value (.pystr "-2") = (⟨(decVal ((-2 : ℤ), (0 : ℤ)) : ℝ), 0⟩, 0) :=
  ⟨by decide, by norm_num [decVal],
    parse_bare_real_phase_zero "-2" (-2, 0) (by decide) (by decide)⟩

/-- C8 counterexample: the two-element list `[1, 2]` of plain numbers is
not parsed to `complex(1, 2)` with phase `atan2(2, 1)` — `val[1].rstrip`
raises on a number, so the fallback `(0+0j, 0)` is returned. -/
theorem parse_pair_numeric_imag_cex :
    parse_complex_value (.pylist [.pynum 1, .pynum 2]) = ((0 : ℂ), (0 : ℝ)) ∧
    parse_complex_value (.pylist [.pynum 1, .pynum 2]) ≠
      ((⟨1, 2⟩ : ℂ), atan2 2 1) := by
  have h : parse_complex_value (.pylist [.pynum 1, .pynum 2]) = ((0 : ℂ), (0 : ℝ)) := by
    simp [parse_complex_value, parse_complex_value_try, pyFloatQ, pyRstripI]
  refine ⟨h, ?_⟩
  rw [h]
  intro hcontra
  have hfst : (0 : ℂ) = (⟨1, 2⟩ : ℂ) := congrArg Prod.fst hcontra
  have him : (0 : ℝ) = 2 := congrArg Complex.im hfst
  norm_num at him

/-- C8 (amended): for a two-element list whose element 0 is a string or
number parseable by `float` and whose element 1 is a **string** whose
trailing `i` suffix strips to a parseable real, the parser returns
`complex(real, imag)` with phase `atan2(imag, real)`; a numeric element 1
instead hits the fallback, since only strings have `rstrip`. -/
theorem parse_pair_string_imag (a : PyVal) (re : ℚ) (s : String) (d : Dec)
    (ha : pyFloatQ a = some re)
    (hd : pyFloatParse (rstripI s) = some d) :
    parse_complex_value (.pylist [a, .pystr s]) =
      (⟨(re : ℝ), (decVal d : ℝ)⟩, atan2 (decVal d : ℝ) (re : ℝ)) := by
  simp [parse_complex_value, parse_complex_value_try, ha, pyRstripI, hd]

/-- C8 witness: `[2, "3i"]` parses to `complex(2, 3)` with phase
`atan2(3, 2)`. -/
theorem parse_pair_string_imag_witness :
    pyFloatQ (.pynum 2) = some 2 ∧ pyFloatParse (rstripI "3i") = some (3, 0) ∧
    parse_complex_value (.pylist [.pynum 2, .pystr "3i"]) =
      (⟨((2 : ℚ) : ℝ), (decVal ((3 : ℤ), (0 : ℤ)) : ℝ)⟩,
        atan2 (decVal ((3 : ℤ), (0 : ℤ)) : ℝ) ((2 : ℚ) : ℝ)) :=
  ⟨by decide, by decide,
    parse_pair_string_imag (.pynum 2) 2 "3i" (3, 0) (by decide) (by decide)⟩

/-- C9: on a non-empty phase matrix, every entry of the ITPC vector is a
real number in the closed interval `[0, 1]`. -/
theorem itpc_values_mem_unit_interval (r : List ℝ) (rs : List (List ℝ)) :
    ∃ v, compute_itpc (r :: rs) = NpVal.vec v ∧ ∀ x ∈ v, x ∈ Set.Icc (0 : ℝ) 1 := by
  refine ⟨_, compute_itpc_cons r rs, ?_⟩
  intro x hx
  rw [List.mem_map] at hx
  obtain ⟨j, -, hxe⟩ := hx
  rw [← hxe]
  constructor
  · exact AbsoluteValue.nonneg _ _
  · rw [← Complex.norm_eq_abs, norm_div]
    have hn : ‖((((r :: rs).length : ℕ)) : ℂ)‖ = ((r :: rs).length : ℝ) := by
      rw [Complex.norm_natCast]
    rw [hn, div_le_one (by exact_mod_cast Nat.succ_pos rs.length)]
    calc ‖((r :: rs).map (fun row => Complex.exp (Complex.I * ((row.getD j 0 : ℝ) : ℂ)))).sum‖
        ≤ (((r :: rs).map
            (fun row => Complex.exp (Complex.I * ((row.getD j 0 : ℝ) : ℂ)))).map
            (fun z => ‖z‖)).sum := list_norm_sum_le _
      _ = ((r :: rs).length : ℝ) := sum_norm_exp (r :: rs) j

/-- C10: `preprocess_data` reads the hard-coded columns
`complex_val_1..complex_val_57`, so its output is independent of
`num_frequencies`, every complex/phase row has width exactly 57, every
emitted ITPC vector has length 57 — while the default `num_frequencies`
is 58, matching the 58-entry `frequencies` array. -/
theorem phase_matrix_width_fixed_57 (nf nf' ne : ℕ) (data : List Row) :
    preprocess_data nf ne data = preprocess_data nf' ne data ∧
    (∀ cb ∈ preprocess_data nf ne data, ∀ em ∈ cb.2,
      (∀ row ∈ em.2.1, row.length = 57) ∧ ∀ row ∈ em.2.2, row.length = 57) ∧
    (∀ cb ∈ analyze_itpc nf ne data, ∀ ev ∈ cb.2, ∀ v, ev.2 = NpVal.vec v →
      v.length = 57) ∧
    num_frequencies_default = 58 ∧ frequencies.length = 58 := by
  have hcols : complex_columns.length = 57 := rfl
  refine ⟨rfl, ?_, ?_, rfl, rfl⟩
  · intro cb hcb em hem
    simp only [preprocess_data, List.mem_map] at hcb
    obtain ⟨c, hc, rfl⟩ := hcb
    simp only [List.mem_map] at hem
    obtain ⟨a, ha, rfl⟩ := hem
    constructor
    · intro row hrow
      simp only [bucketData, List.mem_map] at hrow
      obtain ⟨r0, hr0, rfl⟩ := hrow
      rw [List.length_map]
      exact hcols
    · intro row hrow
      simp only [bucketData, List.mem_map] at hrow
      obtain ⟨r0, hr0, rfl⟩ := hrow
      rw [List.length_map]
      exact hcols
  · intro cb hcb ev hev v hv
    simp only [analyze_itpc, List.mem_map] at hcb
    obtain ⟨cb0, hcb0, rfl⟩ := hcb
    simp only [List.mem_map] at hev
    obtain ⟨em, hem, rfl⟩ := hev
    simp only [preprocess_data, List.mem_map] at hcb0
    obtain ⟨c, hc, rfl⟩ := hcb0
    simp only [List.mem_map] at hem
    obtain ⟨a, ha, rfl⟩ := hem
    rcases hbk : electrodeData (conditionSubset data c.2.1 c.2.2) (a : ℤ) with _ | ⟨r0, rest⟩ <;>
      rw [hbk] at hv
    · simp only [bucketData, List.map_nil] at hv
      exact absurd hv (fun hcontra => NpVal.noConfusion hcontra)
    · simp only [bucketData, List.map_cons, compute_itpc_cons, NpVal.vec.injEq] at hv
      rw [← hv, List.length_map, List.length_range, List.length_map]
      exact hcols

end ITPC
